import Mathlib

/-!
Verification of the trust-metadata reconciliation core (docker trust inspect).

The repository ships the Go test file for this core (`cli/command/trust`
tests: `TestNotaryRoleToSigner`, `TestIsReleasedTarget`, `TestMatch*`,
`TestGetSignerRolesWithKeyIDs`, `TestFormatAdminRole`,
`TestPrintSignerInfoSortOrder`), but not the implementation file itself.
The definitions below are therefore modelled from the specification
(spec.md §3–§4), checked against the behaviour pinned down by those tests.

Machine data is embedded shallowly: role names are `String`, digest bytes
are `Nat` taken modulo 256 at the point of hex encoding, maps are
association lists, and Go's `sort` calls become insertion sorts over
explicit decidable relations so that everything evaluates by `decide`.
-/

/-- Lowercase hexadecimal digit for a value `n < 16` (48 = '0', 87 + 10 = 'a'). -/
def hexDigit (n : Nat) : Char :=
  if n < 10 then Char.ofNat (48 + n) else Char.ofNat (87 + n)

/-- Modelled from the spec: `hex.EncodeToString` for one byte; the byte is
reduced modulo 256, then rendered as two lowercase hex digits. -/
def hexEncodeByte (b : Nat) : List Char :=
  [hexDigit (b % 256 / 16), hexDigit (b % 16)]

/-- Modelled from the spec: `hex.EncodeToString` over a byte sequence. -/
def hexEncode (bs : List Nat) : String :=
  String.mk (bs.foldr (fun b acc => hexEncodeByte b ++ acc) [])

/-- Target of a signing assertion: a tag name together with the digests by
algorithm (spec §3 `Target`, notary `client.Target` with `Hashes`). -/
structure Target where
  name : String
  hashes : List (String × List Nat)
deriving DecidableEq

/-- One observed "role signed target" fact (spec §3 `SigningAssertion`,
notary `client.TargetSignedStruct`; only the role's name matters here). -/
structure TargetSignedStruct where
  role : String
  target : Target
deriving DecidableEq

/-- One report row (spec §3 `SignedTargetReport`, the code's `trustTagRow`
with fields `SignedTag`, `Digest`, `Signers`). -/
structure SignedTargetReport where
  signedTag : String
  digest : String
  signers : List String
deriving DecidableEq

/-- Role definition used for administrative reporting (spec §3
`RoleDefinition`, notary `data.Role` restricted to name and key IDs). -/
structure RoleDefinition where
  name : String
  keyIDs : List String
deriving DecidableEq

/-- Modelled from the spec: the reserved sentinel `releasedRoleName` returned
by `notaryRoleToSigner` for released roles. The tests use the constant only
symbolically and the spec fixes no literal value, only that it is reserved
and never used as a display identity. -/
def releasedRoleName : String := "Repo Admin"

/-- Modelled from the spec (§4.2) and `TestIsReleasedTarget`:
`isReleasedTarget` is true exactly for the canonical targets role and for
the exact string "targets/releases" (an exact match, not a prefix test). -/
def isReleasedTarget (role : String) : Bool :=
  role == "targets" || role == "targets/releases"

/-- Modelled from the spec (§4.1): the delegation-suffix rule. Returns the
remainder of a name of the form "targets/" followed by a non-empty suffix,
and `none` for every other string. -/
def delegationSuffix (s : String) : Option String :=
  match s.data with
  | 't' :: 'a' :: 'r' :: 'g' :: 'e' :: 't' :: 's' :: '/' :: rest =>
    match rest with
    | [] => none
    | _ :: _ => some (String.mk rest)
  | _ => none

/-- Modelled from the spec (§4.1) and `TestNotaryRoleToSigner`:
released roles map to the reserved sentinel, a delegation name maps to its
suffix, and every other name (base roles, malformed input) is returned
unchanged. -/
def notaryRoleToSigner (role : String) : String :=
  if isReleasedTarget role then releasedRoleName
  else
    match delegationSuffix role with
    | some suffix => suffix
    | none => role

/-- Modelled from the spec (§4.1): the four canonical base role names. -/
def isBaseRole (name : String) : Bool :=
  name == "root" || name == "targets" || name == "snapshot" || name == "timestamp"

/-- Strict lexicographic comparison of character lists by code point. -/
def chLess : List Char → List Char → Bool
  | [], [] => false
  | [], _ :: _ => true
  | _ :: _, [] => false
  | c :: cs, d :: ds =>
    if c < d then true else if d < c then false else chLess cs ds

/-- Reflexive lexicographic comparison: `a` at or before `b` in plain
code-point order, i.e. not (`b` strictly before `a`). -/
def strLE (a b : String) : Bool :=
  !(chLess b.data a.data)

/-- Decomposition of a string's characters into maximal runs that
alternate between digit and non-digit characters (spec §4.6). -/
def splitRuns : List Char → List (List Char)
  | [] => []
  | c :: cs =>
    match splitRuns cs with
    | [] => [[c]]
    | [] :: rs => [c] :: rs
    | (d :: r) :: rs =>
      if c.isDigit == d.isDigit then (c :: d :: r) :: rs else [c] :: (d :: r) :: rs

/-- A run is a digit run when it starts with a digit character. -/
def isDigitRun (r : List Char) : Bool :=
  match r with
  | [] => false
  | c :: _ => c.isDigit

/-- Numeric value of a digit run; leading zeros do not affect it. -/
def digitsToNat (r : List Char) : Nat :=
  r.foldl (fun acc c => acc * 10 + (c.toNat - 48)) 0

/-- Modelled from the spec (§4.6): compare run sequences pairwise, digit
runs by numeric value and non-digit runs lexicographically by code point;
a strict prefix of runs sorts first. A digit run meeting a non-digit run
at the same position is not fixed by the spec; such a pair compares
lexicographically by code point. -/
def runsLess : List (List Char) → List (List Char) → Bool
  | [], [] => false
  | [], _ :: _ => true
  | _ :: _, [] => false
  | r :: rs, s :: ss =>
    if isDigitRun r && isDigitRun s then
      if digitsToNat r < digitsToNat s then true
      else if digitsToNat s < digitsToNat r then false
      else runsLess rs ss
    else
      if chLess r s then true
      else if chLess s r then false
      else runsLess rs ss

/-- Modelled from the spec (§4.6): the natural-alphanumeric strict order on
identity strings. -/
def natLess (a b : String) : Bool :=
  runsLess (splitRuns a.data) (splitRuns b.data)

/-- Reflexive companion of `natLess`: `a` at or before `b` in natural
order, i.e. not (`b` strictly before `a`). -/
def natLE (a b : String) : Bool :=
  !(natLess b a)

/-- Relation form of `natLE`, used to order signer identities. -/
def signerLE (a b : String) : Prop := natLE a b = true

instance : DecidableRel signerLE := fun _ _ => instDecidableEqBool _ _

/-- Relation form of `strLE`, used to order administrative key IDs. -/
def lexLE (a b : String) : Prop := strLE a b = true

instance : DecidableRel lexLE := fun _ _ => instDecidableEqBool _ _

/-- Report order: ascending by tag name in plain lexicographic order. -/
def reportLE (r1 r2 : SignedTargetReport) : Prop :=
  strLE r1.signedTag r2.signedTag = true

instance : DecidableRel reportLE := fun _ _ => instDecidableEqBool _ _

/-- Natural order on rows of a rendered signer table, keyed by identity. -/
def signerRowLE (a b : String × List String) : Prop :=
  natLE a.1 b.1 = true

instance : DecidableRel signerRowLE := fun _ _ => instDecidableEqBool _ _

/-- First-occurrence deduplication, written with an accumulator of already
seen elements so that it evaluates by kernel reduction. -/
def dedupAcc {α : Type} [DecidableEq α] (seen : List α) : List α → List α
  | [] => []
  | x :: xs => if x ∈ seen then dedupAcc seen xs else x :: dedupAcc (x :: seen) xs

/-- Deduplication keeping the first occurrence of each element. -/
def dedupFirst {α : Type} [DecidableEq α] (l : List α) : List α :=
  dedupAcc [] l

/-- Digest bytes of a target for the designated algorithm SHA-256; a target
with no SHA-256 entry yields the empty byte sequence, as
`Hashes[notary.SHA256]` does in Go. -/
def targetDigestBytes (t : Target) : List Nat :=
  (List.lookup "sha256" t.hashes).getD []

/-- Matching key of a target: its tag name paired with the lowercase hex
encoding of its SHA-256 digest (spec §4.3 step 2). -/
def targetKey (t : Target) : String × String :=
  (t.name, hexEncode (targetDigestBytes t))

/-- Key of a report row, the (tag name, digest) pair it displays. -/
def rowKey (r : SignedTargetReport) : String × String :=
  (r.signedTag, r.digest)

/-- Keys of the targets referenced by released-role assertions, in input
order and with repetitions (spec §4.3 steps 1–2 before set collapse). -/
def releasedKeys (l : List TargetSignedStruct) : List (String × String) :=
  (l.filter (fun a => isReleasedTarget a.role)).map (fun a => targetKey a.target)

/-- Test for a delegated (non-released) assertion on the target key `k`. -/
def isDelegatedFor (k : String × String) (a : TargetSignedStruct) : Bool :=
  !(isReleasedTarget a.role) && decide (targetKey a.target = k)

/-- Modelled from the spec (§4.3 steps 3–4): the signer identities on a
released target key — identities of the delegated assertions matching the
key exactly, deduplicated, in natural-alphanumeric order. -/
def signersFor (l : List TargetSignedStruct) (k : String × String) : List String :=
  List.insertionSort signerLE
    (dedupFirst ((l.filter (isDelegatedFor k)).map (fun a => notaryRoleToSigner a.role)))

/-- Report row produced for a released target key. -/
def mkReport (l : List TargetSignedStruct) (k : String × String) : SignedTargetReport :=
  ⟨k.1, k.2, signersFor l k⟩

/-- Modelled from the spec (§4.3) and the `TestMatch*` tests: one row per
distinct released (name, digest) key, each carrying the deduplicated and
naturally ordered delegated signer identities for that key, the whole
report sorted ascending by tag name. -/
def matchReleasedSignatures (l : List TargetSignedStruct) : List SignedTargetReport :=
  List.insertionSort reportLE ((dedupFirst (releasedKeys l)).map (mkReport l))

/-- Association-list update with last-wins semantics: replaces the value at
an existing key in place, otherwise appends the new entry. -/
def setEntry (m : List (String × List String)) (k : String) (v : List String) :
    List (String × List String) :=
  match m with
  | [] => [(k, v)]
  | (k', v') :: rest => if k' == k then (k, v) :: rest else (k', v') :: setEntry rest k v

/-- Eligibility of a role definition for the delegation key map: not a base
role, not the reserved "targets/releases" delegation, and a well-formed
delegation name (spec §4.4; `TestGetSignerRolesWithKeyIDs` shows that
"targets/releases" is excluded together with the base roles). -/
def isDelegationMapRole (name : String) : Bool :=
  !(isBaseRole name || name == "targets/releases") && (delegationSuffix name).isSome

/-- One fold step of the delegation key map: an eligible role overwrites
the entry at its identity, every other role is skipped. -/
def delegationStep (m : List (String × List String)) (r : RoleDefinition) :
    List (String × List String) :=
  if isDelegationMapRole r.name then setEntry m (notaryRoleToSigner r.name) r.keyIDs
  else m

/-- Modelled from the spec (§4.4) and `TestGetSignerRolesWithKeyIDs`: fold
the role definitions in input order into an identity → key-IDs map, skipping
base roles, "targets/releases" and malformed names, the last occurrence of
an identity winning. -/
def getDelegationRoleToKeyMap (roles : List RoleDefinition) :
    List (String × List String) :=
  roles.foldl delegationStep []

/-- Entry the spec's words (§4.4 with §8's exclusions) assign to identity
`k`: the key IDs of the last eligible role whose identity is `k`. Stated
independently of `getDelegationRoleToKeyMap` for comparison with it. -/
def delegationEntryFor (roles : List RoleDefinition) (k : String) : Option (List String) :=
  match roles with
  | [] => none
  | r :: rs =>
    (delegationEntryFor rs k).or
      (if isDelegationMapRole r.name && (notaryRoleToSigner r.name == k) then some r.keyIDs
       else none)

/-- Administrative key IDs rendered sorted ascending and comma-space joined
(spec §4.5). -/
def formatKeyIDs (keys : List String) : String :=
  String.intercalate ", " (List.insertionSort lexLE keys)

/-- Modelled from the spec (§4.5) and `TestFormatAdminRole`: label the root
and canonical targets roles with their sorted keys; every other role
renders as the empty string. -/
def formatAdminRole (r : RoleDefinition) : String :=
  if r.name == "root" then "Root Key:\t" ++ formatKeyIDs r.keyIDs ++ "\n"
  else if r.name == "targets" then "Repository Key:\t" ++ formatKeyIDs r.keyIDs ++ "\n"
  else ""

/-- Modelled from the spec (§4.6) and `TestPrintSignerInfoSortOrder`: the
row order of the rendered signer table — entries of the identity → key-IDs
map sorted by natural-alphanumeric order on the identity. Column padding is
a display detail outside the sort-order contract. -/
def printSignerInfo (roleToKeyIDs : List (String × List String)) :
    List (String × List String) :=
  List.insertionSort signerRowLE roleToKeyIDs

/-- Role definitions fed to `getDelegationRoleToKeyMap` by the source test
`TestGetSignerRolesWithKeyIDs`, in the test's input order. -/
def signerRolesInput : List RoleDefinition :=
  [⟨"targets/alice", ["key11"]⟩,
   ⟨"targets/releases", ["key21", "key22"]⟩,
   ⟨"targets", ["key31"]⟩,
   ⟨"root", ["key41", "key01"]⟩,
   ⟨"snapshot", ["key51"]⟩,
   ⟨"timestamp", ["key61"]⟩,
   ⟨"targets/bob", ["key71", "key72"]⟩]

/-- Lowercase hexadecimal alphabet, the character set of every digest
rendered by `hexEncode`. -/
def hexAlphabet : List Char :=
  ("0123456789abcdef" : String).data

theorem mem_dedupAcc {α : Type} [DecidableEq α] (l : List α) :
    ∀ (seen : List α) (a : α), a ∈ dedupAcc seen l ↔ a ∈ l ∧ a ∉ seen := by
  induction l with
  | nil => intro seen a; simp [dedupAcc]
  | cons x xs ih =>
    intro seen a
    by_cases hx : x ∈ seen
    · rw [show dedupAcc seen (x :: xs) = dedupAcc seen xs from by simp [dedupAcc, hx], ih]
      constructor
      · rintro ⟨h1, h2⟩
        exact ⟨List.mem_cons_of_mem _ h1, h2⟩
      · rintro ⟨h1, h2⟩
        rcases List.mem_cons.mp h1 with rfl | h1
        · exact absurd hx h2
        · exact ⟨h1, h2⟩
    · rw [show dedupAcc seen (x :: xs) = x :: dedupAcc (x :: seen) xs from by
        simp [dedupAcc, hx]]
      rw [List.mem_cons, ih]
      constructor
      · rintro (rfl | ⟨h1, h2⟩)
        · exact ⟨List.mem_cons_self _ _, hx⟩
        · exact ⟨List.mem_cons_of_mem _ h1, fun hs => h2 (List.mem_cons_of_mem _ hs)⟩
      · rintro ⟨h1, h2⟩
        rcases List.mem_cons.mp h1 with rfl | h1
        · exact Or.inl rfl
        · by_cases hax : a = x
          · exact Or.inl hax
          · refine Or.inr ⟨h1, fun hs => ?_⟩
            rcases List.mem_cons.mp hs with rfl | hs
            · exact hax rfl
            · exact h2 hs

theorem nodup_dedupAcc {α : Type} [DecidableEq α] (l : List α) :
    ∀ seen : List α, (dedupAcc seen l).Nodup := by
  induction l with
  | nil => intro seen; simp [dedupAcc]
  | cons x xs ih =>
    intro seen
    by_cases hx : x ∈ seen
    · rw [show dedupAcc seen (x :: xs) = dedupAcc seen xs from by simp [dedupAcc, hx]]
      exact ih seen
    · rw [show dedupAcc seen (x :: xs) = x :: dedupAcc (x :: seen) xs from by
        simp [dedupAcc, hx]]
      refine List.nodup_cons.mpr ⟨fun hmem => ?_, ih _⟩
      exact ((mem_dedupAcc xs _ x).mp hmem).2 (List.mem_cons_self _ _)

theorem dedupAcc_append_self {α : Type} [DecidableEq α] (l : List α) :
    ∀ (seen : List α) (x : α), x ∈ l ∨ x ∈ seen →
      dedupAcc seen (l ++ [x]) = dedupAcc seen l := by
  induction l with
  | nil =>
    intro seen x hx
    rcases hx with h | h
    · cases h
    · simp [dedupAcc, h]
  | cons y ys ih =>
    intro seen x hx
    by_cases hy : y ∈ seen
    · rw [List.cons_append]
      rw [show dedupAcc seen (y :: (ys ++ [x])) = dedupAcc seen (ys ++ [x]) from by
        simp [dedupAcc, hy]]
      rw [show dedupAcc seen (y :: ys) = dedupAcc seen ys from by simp [dedupAcc, hy]]
      apply ih
      rcases hx with h | h
      · rcases List.mem_cons.mp h with rfl | h
        · exact Or.inr hy
        · exact Or.inl h
      · exact Or.inr h
    · rw [List.cons_append]
      rw [show dedupAcc seen (y :: (ys ++ [x])) = y :: dedupAcc (y :: seen) (ys ++ [x]) from by
        simp [dedupAcc, hy]]
      rw [show dedupAcc seen (y :: ys) = y :: dedupAcc (y :: seen) ys from by
        simp [dedupAcc, hy]]
      congr 1
      apply ih
      rcases hx with h | h
      · rcases List.mem_cons.mp h with rfl | h
        · exact Or.inr (List.mem_cons_self _ _)
        · exact Or.inl h
      · exact Or.inr (List.mem_cons_of_mem _ h)

theorem mem_dedupFirst {α : Type} [DecidableEq α] (l : List α) (a : α) :
    a ∈ dedupFirst l ↔ a ∈ l := by
  rw [dedupFirst, mem_dedupAcc]
  simp

theorem nodup_dedupFirst {α : Type} [DecidableEq α] (l : List α) :
    (dedupFirst l).Nodup :=
  nodup_dedupAcc l []

theorem dedupFirst_append_self {α : Type} [DecidableEq α] {l : List α} {x : α}
    (h : x ∈ l) : dedupFirst (l ++ [x]) = dedupFirst l :=
  dedupAcc_append_self l [] x (Or.inl h)

theorem chLess_iff (x : List Char) : ∀ y : List Char, chLess x y = true ↔ List.lt x y := by
  induction x with
  | nil =>
    intro y
    cases y with
    | nil => refine iff_of_false (by simp [chLess]) ?_; intro h; cases h
    | cons d ds => exact iff_of_true (by simp [chLess]) (List.lt.nil d ds)
  | cons c cs ih =>
    intro y
    cases y with
    | nil => refine iff_of_false (by simp [chLess]) ?_; intro h; cases h
    | cons d ds =>
      by_cases h1 : c < d
      · exact iff_of_true (by simp [chLess, h1]) (List.lt.head _ _ h1)
      · by_cases h2 : d < c
        · refine iff_of_false (by simp [chLess, h1, h2]) ?_
          intro h
          cases h with
          | head _ _ h => exact absurd h h1
          | tail ha hb _ => exact absurd h2 hb
        · rw [show chLess (c :: cs) (d :: ds) = chLess cs ds from by simp [chLess, h1, h2]]
          rw [ih ds]
          constructor
          · exact fun h => List.lt.tail h1 h2 h
          · intro h
            cases h with
            | head _ _ h => exact absurd h h1
            | tail _ _ h => exact h

theorem strLE_iff_le (a b : String) : strLE a b = true ↔ a ≤ b := by
  have hlex : (b.toList < a.toList) ↔ List.Lex (· < ·) b.data a.data := Iff.rfl
  have h2 : (b.toList < a.toList) ↔ chLess b.data a.data = true :=
    hlex.trans ((List.lt_iff_lex_lt b.data a.data).symm.trans (chLess_iff b.data a.data).symm)
  rw [String.le_iff_toList_le, ← not_lt, h2, strLE]
  cases hch : chLess b.data a.data <;> simp [hch]

theorem reportLE_total (a b : SignedTargetReport) : reportLE a b ∨ reportLE b a := by
  rcases le_total a.signedTag b.signedTag with h | h
  · exact Or.inl ((strLE_iff_le _ _).mpr h)
  · exact Or.inr ((strLE_iff_le _ _).mpr h)

theorem reportLE_trans (a b c : SignedTargetReport) :
    reportLE a b → reportLE b c → reportLE a c := by
  intro hab hbc
  exact (strLE_iff_le _ _).mpr
    (le_trans ((strLE_iff_le _ _).mp hab) ((strLE_iff_le _ _).mp hbc))

theorem lookup_setEntry (m : List (String × List String)) (k : String) (v : List String)
    (k' : String) :
    List.lookup k' (setEntry m k v) = if k' = k then some v else List.lookup k' m := by
  induction m with
  | nil =>
    by_cases h : k' = k
    · simp [setEntry, List.lookup, h]
    · have hb : (k' == k) = false := beq_eq_false_iff_ne.mpr h
      simp [setEntry, List.lookup, h, hb]
  | cons p rest ih =>
    obtain ⟨k1, v1⟩ := p
    by_cases h1 : k1 = k
    · subst h1
      rw [show setEntry ((k1, v1) :: rest) k1 v = (k1, v) :: rest from by simp [setEntry]]
      by_cases h2 : k' = k1
      · simp [List.lookup, h2]
      · have hb : (k' == k1) = false := beq_eq_false_iff_ne.mpr h2
        simp [List.lookup, h2, hb]
    · rw [show setEntry ((k1, v1) :: rest) k v = (k1, v1) :: setEntry rest k v from by
        simp [setEntry, h1]]
      by_cases h2 : k' = k1
      · subst h2
        have hkne : ¬ k' = k := fun h => h1 (h.symm ▸ rfl)
        simp [List.lookup, hkne]
      · have hb : (k' == k1) = false := beq_eq_false_iff_ne.mpr h2
        simp [List.lookup, h2, hb, ih]

theorem hexDigit_mem : ∀ n, n < 16 → hexDigit n ∈ hexAlphabet := by decide

theorem hexEncode_mem (bs : List Nat) : ∀ c ∈ (hexEncode bs).data, c ∈ hexAlphabet := by
  induction bs with
  | nil => intro c hc; cases hc
  | cons b rest ih =>
    intro c hc
    have hc' : c ∈ hexEncodeByte b ++ (hexEncode rest).data := hc
    rcases List.mem_append.mp hc' with h | h
    · rcases List.mem_cons.mp h with rfl | h
      · refine hexDigit_mem _ ?_
        have hb : b % 256 < 256 := Nat.mod_lt _ (by norm_num)
        omega
      · rcases List.mem_cons.mp h with rfl | h
        · exact hexDigit_mem _ (Nat.mod_lt _ (by norm_num))
        · cases h
    · exact ih c h

theorem delegationSuffix_append (rest : String) (h : rest ≠ "") :
    delegationSuffix ("targets/" ++ rest) = some rest := by
  obtain ⟨rl⟩ := rest
  cases rl with
  | nil => exact absurd rfl h
  | cons c cs => rfl

theorem append_ne_targets (rest : String) : ("targets/" ++ rest) ≠ "targets" := by
  intro heq
  have hd := congrArg String.data heq
  rw [String.data_append] at hd
  have hl := congrArg List.length hd
  rw [List.length_append] at hl
  rw [show ("targets/" : String).data.length = 8 from rfl] at hl
  rw [show ("targets" : String).data.length = 7 from rfl] at hl
  omega

theorem append_eq_releases_iff (rest : String) :
    ("targets/" ++ rest) = "targets/releases" ↔ rest = "releases" := by
  constructor
  · intro heq
    have hd := congrArg String.data heq
    rw [String.data_append] at hd
    rw [show ("targets/releases" : String).data
        = ("targets/" : String).data ++ ("releases" : String).data from rfl] at hd
    exact String.ext (List.append_cancel_left hd)
  · rintro rfl; rfl

theorem isReleasedTarget_append (rest : String) (h : rest ≠ "releases") :
    isReleasedTarget ("targets/" ++ rest) = false := by
  have h1 : (("targets/" ++ rest) == "targets") = false :=
    beq_eq_false_iff_ne.mpr (append_ne_targets rest)
  have h2 : (("targets/" ++ rest) == "targets/releases") = false :=
    beq_eq_false_iff_ne.mpr (fun heq => h ((append_eq_releases_iff rest).mp heq))
  simp [isReleasedTarget, h1, h2]

/-- Claim C3: `isReleasedTarget` returns true for exactly two role names —
the canonical targets role "targets" and the exact string
"targets/releases" — and false for every other string, including
"targets/releases/subrole", the other base roles, and arbitrary strings:
an exact match, not a prefix test. -/
theorem claim_C3_isReleasedTarget_exact_match :
    (∀ name : String,
      isReleasedTarget name = true ↔ name = "targets" ∨ name = "targets/releases")
    ∧ isReleasedTarget "targets/releases/subrole" = false
    ∧ isReleasedTarget "root" = false
    ∧ isReleasedTarget "snapshot" = false
    ∧ isReleasedTarget "timestamp" = false
    ∧ isReleasedTarget "targets/not-releases" = false
    ∧ isReleasedTarget "random" = false := by
  refine ⟨fun name => ?_, by decide, by decide, by decide, by decide, by decide, by decide⟩
  simp [isReleasedTarget]

/-- Claim C4: `notaryRoleToSigner` is total on strings: it returns the
reserved released sentinel for the canonical targets role and for exactly
"targets/releases"; for any other name of the form "targets/" followed by
a non-empty remainder it returns that remainder verbatim (the remainder
may itself contain a slash); and it returns every other name unchanged
(base roles and malformed input alike). -/
theorem claim_C4_notaryRoleToSigner_total :
    notaryRoleToSigner "targets" = releasedRoleName
    ∧ notaryRoleToSigner "targets/releases" = releasedRoleName
    ∧ (∀ rest : String, rest ≠ "" → rest ≠ "releases" →
        notaryRoleToSigner ("targets/" ++ rest) = rest)
    ∧ notaryRoleToSigner "targets/signer" = "signer"
    ∧ notaryRoleToSigner "targets/docker/signer" = "docker/signer"
    ∧ (∀ name : String, delegationSuffix name = none → isReleasedTarget name = false →
        notaryRoleToSigner name = name)
    ∧ notaryRoleToSigner "root" = "root"
    ∧ notaryRoleToSigner "snapshot" = "snapshot"
    ∧ notaryRoleToSigner "timestamp" = "timestamp"
    ∧ notaryRoleToSigner "notarole" = "notarole" := by
  refine ⟨by decide, by decide, fun rest h1 h2 => ?_, by decide, by decide,
    fun name hsuf hrel => ?_, by decide, by decide, by decide, by decide⟩
  · rw [notaryRoleToSigner, isReleasedTarget_append rest h2]
    rw [delegationSuffix_append rest h1]
    simp
  · rw [notaryRoleToSigner, hrel, hsuf]
    simp

/-- Witness for C4: the delegation and fallback branches at concrete
inputs, with the hypotheses discharged there. -/
theorem claim_C4_witness :
    (("signer" : String) ≠ "" ∧ ("signer" : String) ≠ "releases"
      ∧ notaryRoleToSigner ("targets/" ++ "signer") = "signer")
    ∧ (delegationSuffix "notarole" = none ∧ isReleasedTarget "notarole" = false
      ∧ notaryRoleToSigner "notarole" = "notarole") :=
  ⟨⟨by decide, by decide,
    claim_C4_notaryRoleToSigner_total.2.2.1 "signer" (by decide) (by decide)⟩,
   ⟨by decide, by decide,
    claim_C4_notaryRoleToSigner_total.2.2.2.2.2.1 "notarole" (by decide) (by decide)⟩⟩

theorem matchReleased_perm_rows (l : List TargetSignedStruct) :
    (matchReleasedSignatures l).Perm ((dedupFirst (releasedKeys l)).map (mkReport l)) :=
  List.perm_insertionSort _ _

theorem matchReleased_map_rowKey_perm (l : List TargetSignedStruct) :
    ((matchReleasedSignatures l).map rowKey).Perm (dedupFirst (releasedKeys l)) := by
  have hp := (matchReleased_perm_rows l).map rowKey
  rw [List.map_map] at hp
  have heq : (dedupFirst (releasedKeys l)).map (rowKey ∘ mkReport l)
      = dedupFirst (releasedKeys l) := by
    have hpt : ∀ k ∈ dedupFirst (releasedKeys l), (rowKey ∘ mkReport l) k = id k := by
      intro k hk
      simp [rowKey, mkReport]
    rw [List.map_congr_left hpt, List.map_id]
  rwa [heq] at hp

theorem mem_releasedKeys (l : List TargetSignedStruct) (k : String × String) :
    k ∈ releasedKeys l ↔ ∃ a ∈ l, isReleasedTarget a.role = true ∧ targetKey a.target = k := by
  simp [releasedKeys, List.mem_filter, and_assoc]

/-- Claim C1: `matchReleasedSignatures` emits a report row for a
(tag name, digest) pair if and only if at least one assertion in the input
whose role is released references exactly that pair; a target signed only
by delegated roles therefore produces no row, and the empty input yields
the empty report. -/
theorem claim_C1_row_iff_released_assertion :
    (∀ (l : List TargetSignedStruct) (n d : String),
      (n, d) ∈ (matchReleasedSignatures l).map rowKey ↔
        ∃ a ∈ l, isReleasedTarget a.role = true ∧ targetKey a.target = (n, d))
    ∧ matchReleasedSignatures [] = [] := by
  refine ⟨fun l n d => ?_, rfl⟩
  rw [(matchReleased_map_rowKey_perm l).mem_iff, mem_dedupFirst, mem_releasedKeys]

/-- Claim C5: the report is sorted ascending by tag name in plain
lexicographic order, and carries exactly one row per distinct released
(name, digest) key: the row keys are exactly the distinct released keys,
without repetition. Rows sharing a tag name are ordered only by name. -/
theorem claim_C5_sorted_one_row_per_key :
    ∀ l : List TargetSignedStruct,
      List.Sorted (fun r1 r2 => r1.signedTag ≤ r2.signedTag) (matchReleasedSignatures l)
      ∧ ((matchReleasedSignatures l).map rowKey).Perm (dedupFirst (releasedKeys l))
      ∧ ((matchReleasedSignatures l).map rowKey).Nodup := by
  intro l
  refine ⟨?_, matchReleased_map_rowKey_perm l, ?_⟩
  · have hs : List.Sorted reportLE (matchReleasedSignatures l) :=
      @List.sorted_insertionSort _ reportLE _ ⟨reportLE_total⟩ ⟨reportLE_trans⟩ _
    exact hs.imp (fun h => (strLE_iff_le _ _).mp h)
  · exact (matchReleased_map_rowKey_perm l).nodup_iff.mpr (nodup_dedupFirst _)

theorem releasedKeys_append_released {l : List TargetSignedStruct}
    {a : TargetSignedStruct} (hr : isReleasedTarget a.role = true) :
    releasedKeys (l ++ [a]) = releasedKeys l ++ [targetKey a.target] := by
  simp [releasedKeys, List.filter_append, List.filter_cons, hr]

theorem releasedKeys_append_delegated {l : List TargetSignedStruct}
    {a : TargetSignedStruct} (hr : isReleasedTarget a.role = false) :
    releasedKeys (l ++ [a]) = releasedKeys l := by
  simp [releasedKeys, List.filter_append, List.filter_cons, hr]

theorem signersFor_append_dup {l : List TargetSignedStruct}
    {a : TargetSignedStruct} (ha : a ∈ l) (k : String × String) :
    signersFor (l ++ [a]) k = signersFor l k := by
  by_cases hd : isDelegatedFor k a = true
  · have hmap : (List.filter (isDelegatedFor k) (l ++ [a])).map
        (fun x => notaryRoleToSigner x.role)
        = (List.filter (isDelegatedFor k) l).map (fun x => notaryRoleToSigner x.role)
          ++ [notaryRoleToSigner a.role] := by
      simp [List.filter_append, List.filter_cons, hd]
    rw [signersFor, signersFor, hmap, dedupFirst_append_self]
    exact List.mem_map.mpr ⟨a, List.mem_filter.mpr ⟨ha, hd⟩, rfl⟩
  · have hmap : (List.filter (isDelegatedFor k) (l ++ [a])).map
        (fun x => notaryRoleToSigner x.role)
        = (List.filter (isDelegatedFor k) l).map (fun x => notaryRoleToSigner x.role) := by
      simp [List.filter_append, List.filter_cons, hd]
    rw [signersFor, signersFor, hmap]

/-- Claim C7: `matchReleasedSignatures` is invariant under duplication of
input assertions: appending an assertion already present (same role and
same target) leaves the report unchanged, so a delegated role that signed
the same target twice contributes exactly one signer entry. -/
theorem claim_C7_duplicate_invariant :
    ∀ (l : List TargetSignedStruct) (a : TargetSignedStruct),
      a ∈ l → matchReleasedSignatures (l ++ [a]) = matchReleasedSignatures l := by
  intro l a ha
  have hkeys : dedupFirst (releasedKeys (l ++ [a])) = dedupFirst (releasedKeys l) := by
    by_cases hr : isReleasedTarget a.role = true
    · rw [releasedKeys_append_released hr]
      apply dedupFirst_append_self
      exact (mem_releasedKeys l _).mpr ⟨a, ha, hr, rfl⟩
    · rw [releasedKeys_append_delegated (Bool.not_eq_true _ ▸ hr)]
  rw [matchReleasedSignatures, matchReleasedSignatures, hkeys]
  congr 1
  apply List.map_congr_left
  intro k hk
  simp [mkReport, signersFor_append_dup ha k]

/-- Witness for C7: a concrete duplicated delegated assertion changes
nothing, and the duplicated role still contributes a single signer. -/
theorem claim_C7_witness :
    ((⟨"targets/a", ⟨"t", [("sha256", [1])]⟩⟩ : TargetSignedStruct)
      ∈ [⟨"targets", ⟨"t", [("sha256", [1])]⟩⟩,
         (⟨"targets/a", ⟨"t", [("sha256", [1])]⟩⟩ : TargetSignedStruct)])
    ∧ matchReleasedSignatures
        ([⟨"targets", ⟨"t", [("sha256", [1])]⟩⟩,
          ⟨"targets/a", ⟨"t", [("sha256", [1])]⟩⟩]
         ++ [⟨"targets/a", ⟨"t", [("sha256", [1])]⟩⟩])
      = matchReleasedSignatures
          [⟨"targets", ⟨"t", [("sha256", [1])]⟩⟩,
           ⟨"targets/a", ⟨"t", [("sha256", [1])]⟩⟩]
    ∧ matchReleasedSignatures
        [⟨"targets", ⟨"t", [("sha256", [1])]⟩⟩,
         ⟨"targets/a", ⟨"t", [("sha256", [1])]⟩⟩,
         ⟨"targets/a", ⟨"t", [("sha256", [1])]⟩⟩]
      = [⟨"t", "01", ["a"]⟩] :=
  ⟨by decide,
   claim_C7_duplicate_invariant _ _ (by decide),
   by decide⟩

theorem mem_matchReleased {l : List TargetSignedStruct} {r : SignedTargetReport}
    (hr : r ∈ matchReleasedSignatures l) :
    ∃ k, k ∈ releasedKeys l ∧ r = mkReport l k := by
  have hm := (matchReleased_perm_rows l).mem_iff.mp hr
  obtain ⟨k, hk, hkr⟩ := List.mem_map.mp hm
  exact ⟨k, (mem_dedupFirst _ _).mp hk, hkr.symm⟩

theorem isDelegatedFor_eq_true {k : String × String} {a : TargetSignedStruct} :
    isDelegatedFor k a = true ↔
      isReleasedTarget a.role = false ∧ targetKey a.target = k := by
  simp [isDelegatedFor, Bool.and_eq_true, Bool.not_eq_true', decide_eq_true_eq]

theorem mem_signersFor {l : List TargetSignedStruct} {k : String × String} {s : String} :
    s ∈ signersFor l k ↔
      ∃ a ∈ l, isDelegatedFor k a = true ∧ notaryRoleToSigner a.role = s := by
  rw [signersFor, (List.perm_insertionSort signerLE _).mem_iff, mem_dedupFirst]
  simp [List.mem_filter, and_assoc]

/-- Claim C8: in every report row, each signer entry originates from a
delegated (non-released) assertion on exactly that row's (tag, digest)
key; in particular, when every assertion on the row's key has a released
role — e.g. the target was signed only by "targets" or
"targets/releases" — the row's signers sequence is empty. -/
theorem claim_C8_signers_never_released :
    ∀ (l : List TargetSignedStruct) (r : SignedTargetReport),
      r ∈ matchReleasedSignatures l →
        (∀ s ∈ r.signers, ∃ a ∈ l, isReleasedTarget a.role = false
          ∧ s = notaryRoleToSigner a.role ∧ targetKey a.target = rowKey r)
        ∧ ((∀ a ∈ l, targetKey a.target = rowKey r → isReleasedTarget a.role = true) →
            r.signers = []) := by
  intro l r hr
  obtain ⟨k, hkmem, rfl⟩ := mem_matchReleased hr
  have hrowkey : rowKey (mkReport l k) = k := by simp [rowKey, mkReport]
  constructor
  · intro s hs
    obtain ⟨a, hal, hdel, hsig⟩ := mem_signersFor.mp hs
    obtain ⟨hrel, hkey⟩ := isDelegatedFor_eq_true.mp hdel
    exact ⟨a, hal, hrel, hsig.symm, by rw [hrowkey]; exact hkey⟩
  · intro hall
    have hfilter : List.filter (isDelegatedFor k) l = [] := by
      rw [List.filter_eq_nil_iff]
      intro a hal hdel
      obtain ⟨hrel, hkey⟩ := isDelegatedFor_eq_true.mp hdel
      have := hall a hal (by rw [hrowkey]; exact hkey)
      rw [this] at hrel
      cases hrel
    show signersFor l k = []
    rw [signersFor, hfilter]
    rfl

/-- Witness for C8: a released target signed additionally by one delegated
role, and the row produced by a target signed only by released roles. -/
theorem claim_C8_witness :
    ((⟨"t", "01", ["a"]⟩ : SignedTargetReport)
      ∈ matchReleasedSignatures
          [⟨"targets", ⟨"t", [("sha256", [1])]⟩⟩,
           ⟨"targets/a", ⟨"t", [("sha256", [1])]⟩⟩])
    ∧ (∀ s ∈ (⟨"t", "01", ["a"]⟩ : SignedTargetReport).signers,
        ∃ a ∈ [(⟨"targets", ⟨"t", [("sha256", [1])]⟩⟩ : TargetSignedStruct),
               ⟨"targets/a", ⟨"t", [("sha256", [1])]⟩⟩],
          isReleasedTarget a.role = false
          ∧ s = notaryRoleToSigner a.role
          ∧ targetKey a.target = rowKey ⟨"t", "01", ["a"]⟩)
    ∧ ((∀ a ∈ [(⟨"targets", ⟨"t", [("sha256", [1])]⟩⟩ : TargetSignedStruct),
               ⟨"targets/a", ⟨"t", [("sha256", [1])]⟩⟩],
          targetKey a.target = rowKey ⟨"t", "01", ["a"]⟩ → isReleasedTarget a.role = true) →
        (⟨"t", "01", ["a"]⟩ : SignedTargetReport).signers = []) :=
  ⟨by decide,
   (claim_C8_signers_never_released _ _ (by decide)).1,
   (claim_C8_signers_never_released _ _ (by decide)).2⟩

/-- Claim C10: every report row carries the released target's name verbatim
as its tag and the lowercase hexadecimal encoding of that target's SHA-256
digest bytes as its digest (SHA-256 being the designated algorithm used
for target equality). -/
theorem claim_C10_row_fields :
    ∀ (l : List TargetSignedStruct) (r : SignedTargetReport),
      r ∈ matchReleasedSignatures l →
        ∃ a ∈ l, isReleasedTarget a.role = true
          ∧ r.signedTag = a.target.name
          ∧ r.digest = hexEncode (targetDigestBytes a.target)
          ∧ ∀ c ∈ r.digest.data, c ∈ hexAlphabet := by
  intro l r hr
  obtain ⟨k, hkmem, rfl⟩ := mem_matchReleased hr
  obtain ⟨a, hal, hrel, hkey⟩ := (mem_releasedKeys l k).mp hkmem
  refine ⟨a, hal, hrel, ?_, ?_, ?_⟩
  · show k.1 = a.target.name
    rw [← hkey]; rfl
  · show k.2 = hexEncode (targetDigestBytes a.target)
    rw [← hkey]; rfl
  · intro c hc
    have hd : (mkReport l k).digest = hexEncode (targetDigestBytes a.target) := by
      show k.2 = hexEncode (targetDigestBytes a.target)
      rw [← hkey]; rfl
    rw [hd] at hc
    exact hexEncode_mem _ c hc

/-- Witness for C10: a single released assertion with digest bytes
171, 0 yields the row with tag "rel" and digest "ab00". -/
theorem claim_C10_witness :
    ((⟨"rel", "ab00", []⟩ : SignedTargetReport)
      ∈ matchReleasedSignatures
          [⟨"targets/releases", ⟨"rel", [("sha256", [171, 0])]⟩⟩])
    ∧ ∃ a ∈ [(⟨"targets/releases", ⟨"rel", [("sha256", [171, 0])]⟩⟩ : TargetSignedStruct)],
        isReleasedTarget a.role = true
        ∧ (⟨"rel", "ab00", []⟩ : SignedTargetReport).signedTag = a.target.name
        ∧ (⟨"rel", "ab00", []⟩ : SignedTargetReport).digest
            = hexEncode (targetDigestBytes a.target)
        ∧ ∀ c ∈ (⟨"rel", "ab00", []⟩ : SignedTargetReport).digest.data, c ∈ hexAlphabet :=
  ⟨by decide, claim_C10_row_fields _ _ (by decide)⟩

/-- Counterexample to C2 as stated: in the source test's own input,
"targets/releases" is neither a base role nor malformed, yet it
contributes no entry to the delegation key map — the map holds exactly
the alice and bob entries, and no entry carries its keys. -/
theorem claim_C2_counterexample :
    ((⟨"targets/releases", ["key21", "key22"]⟩ : RoleDefinition) ∈ signerRolesInput)
    ∧ isBaseRole "targets/releases" = false
    ∧ (delegationSuffix "targets/releases").isSome = true
    ∧ getDelegationRoleToKeyMap signerRolesInput
        = [("alice", ["key11"]), ("bob", ["key71", "key72"])]
    ∧ (∀ e ∈ getDelegationRoleToKeyMap signerRolesInput, e.2 ≠ ["key21", "key22"]) := by
  decide

theorem lookup_foldl_delegationStep (roles : List RoleDefinition) :
    ∀ (m : List (String × List String)) (k : String),
      List.lookup k (roles.foldl delegationStep m)
        = (delegationEntryFor roles k).or (List.lookup k m) := by
  induction roles with
  | nil => intro m k; simp [delegationEntryFor, Option.or]
  | cons r rs ih =>
    intro m k
    rw [List.foldl_cons, ih]
    rw [show delegationEntryFor (r :: rs) k
        = (delegationEntryFor rs k).or
            (if isDelegationMapRole r.name && (notaryRoleToSigner r.name == k)
             then some r.keyIDs else none) from rfl]
    cases hrs : delegationEntryFor rs k with
    | some v => simp [Option.or]
    | none =>
      simp only [Option.or]
      by_cases hc : isDelegationMapRole r.name = true
      · rw [show delegationStep m r = setEntry m (notaryRoleToSigner r.name) r.keyIDs from by
          simp [delegationStep, hc]]
        rw [lookup_setEntry]
        by_cases hk : k = notaryRoleToSigner r.name
        · subst hk
          simp [hc]
        · have hb : (notaryRoleToSigner r.name == k) = false :=
            beq_eq_false_iff_ne.mpr (fun h => hk h.symm)
          simp [hk, hb]
      · rw [show delegationStep m r = m from by simp [delegationStep, hc]]
        simp [hc]

/-- Claim C2 amended: `getDelegationRoleToKeyMap` skips the base roles
(root, targets, snapshot, timestamp), the reserved "targets/releases"
role, and malformed names; every other role contributes the entry
map[identity] = keyIDs with identity computed by the delegation-suffix
rule, the last occurrence in input order winning. Stated as: looking up
any identity in the built map returns exactly what the spec's
last-eligible-occurrence rule (`delegationEntryFor`) assigns to it. -/
theorem claim_C2_amended_delegation_map :
    ∀ (roles : List RoleDefinition) (k : String),
      List.lookup k (getDelegationRoleToKeyMap roles) = delegationEntryFor roles k := by
  intro roles k
  rw [getDelegationRoleToKeyMap, lookup_foldl_delegationStep]
  cases h : delegationEntryFor roles k <;> simp [Option.or, List.lookup]

/-- Claim C6: the identity comparator used for signers and for rendering
the delegation key map compares maximal alternating digit / non-digit
runs — non-digit runs lexicographically by code point, digit runs by
integer value ignoring leading zeros, a run-sequence prefix first — so
"signer1-foo" < "signer2-foo" < "signer10-foo", and `printSignerInfo`
renders the map {signer2-foo: B, signer10-foo: C, signer1-foo: A} in the
row order signer1-foo, signer2-foo, signer10-foo. -/
theorem claim_C6_natural_order :
    (∀ a b : String, natLess a b = runsLess (splitRuns a.data) (splitRuns b.data))
    ∧ natLess "signer1-foo" "signer2-foo" = true
    ∧ natLess "signer2-foo" "signer10-foo" = true
    ∧ natLess "signer10-foo" "signer2-foo" = false
    ∧ natLess "signer2-foo" "signer1-foo" = false
    ∧ natLess "signer02-foo" "signer10-foo" = true
    ∧ natLess "signer02-foo" "signer2-foo" = false
    ∧ natLess "signer2-foo" "signer02-foo" = false
    ∧ printSignerInfo [("signer2-foo", ["B"]), ("signer10-foo", ["C"]), ("signer1-foo", ["A"])]
        = [("signer1-foo", ["A"]), ("signer2-foo", ["B"]), ("signer10-foo", ["C"])] :=
  ⟨fun _ _ => rfl, by decide, by decide, by decide, by decide, by decide, by decide,
   by decide, by decide⟩

/-- Claim C9: `formatAdminRole` labels the root role "Root Key:" and the
canonical targets role "Repository Key:", each followed by a tab, the
role's key IDs sorted ascending and comma-space joined, and a newline; it
returns the empty string for every other role name, including
"targets/releases", delegation roles, snapshot, and timestamp. -/
theorem claim_C9_formatAdminRole :
    (∀ keys : List String,
      formatAdminRole ⟨"root", keys⟩ = "Root Key:\t" ++ formatKeyIDs keys ++ "\n")
    ∧ (∀ keys : List String,
      formatAdminRole ⟨"targets", keys⟩ = "Repository Key:\t" ++ formatKeyIDs keys ++ "\n")
    ∧ (∀ r : RoleDefinition, r.name ≠ "root" → r.name ≠ "targets" → formatAdminRole r = "")
    ∧ formatAdminRole ⟨"root", ["key11"]⟩ = "Root Key:\tkey11\n"
    ∧ formatAdminRole ⟨"targets", ["key99", "abc", "key11"]⟩
        = "Repository Key:\tabc, key11, key99\n"
    ∧ formatAdminRole ⟨"targets/releases", ["key11"]⟩ = ""
    ∧ formatAdminRole ⟨"targets/alice", ["key11"]⟩ = ""
    ∧ formatAdminRole ⟨"snapshot", ["key11"]⟩ = ""
    ∧ formatAdminRole ⟨"timestamp", ["key11"]⟩ = "" := by
  refine ⟨fun keys => rfl, fun keys => ?_, fun r h1 h2 => ?_,
    by decide, by decide, by decide, by decide, by decide, by decide⟩
  · rw [show formatAdminRole ⟨"targets", keys⟩
        = "Repository Key:\t" ++ formatKeyIDs keys ++ "\n" from by
      simp [formatAdminRole]]
  · have hb1 : (r.name == "root") = false := beq_eq_false_iff_ne.mpr h1
    have hb2 : (r.name == "targets") = false := beq_eq_false_iff_ne.mpr h2
    simp [formatAdminRole, hb1, hb2]

/-- Witness for C9: the empty-string branch applied at a concrete
non-administrative role. -/
theorem claim_C9_witness :
    (("targets/releases" : String) ≠ "root"
      ∧ ("targets/releases" : String) ≠ "targets"
      ∧ formatAdminRole ⟨"targets/releases", ["key21", "key22"]⟩ = "") :=
  ⟨by decide, by decide,
   claim_C9_formatAdminRole.2.2.1 ⟨"targets/releases", ["key21", "key22"]⟩
     (by decide) (by decide)⟩
